/-
  Verification of the bulk-ingest core of the IMPORT subsystem
  (pkg/ccl/importccl: import_processor.go, read_import_base.go).

  The Go code is shallowly embedded: pure helpers become Lean functions,
  the stateful ingest pipeline becomes explicit state passing and a step
  relation over an ingestor state, Go slices become `List Nat`, Go byte
  strings become `List Nat` (or `String` where the source manipulates
  strings), machine floats are modelled as exact rationals, and code that
  can panic returns `Option`.  External collaborators (url.Parse, the
  SpanGroup membership test, keys.IsDescriptorKey, the bulk adders, the
  PRNG, the upstream row sink) are parameters of the embedding, exactly
  as the source treats them as opaque interfaces.
-/
import Mathlib

set_option maxHeartbeats 1000000

/-! ## Data model

A KV pair carries opaque key bytes and value bytes
(`roachpb.KeyValue` with `kv.Key` and `kv.Value.RawBytes`). -/

structure KV where
  key : List Nat
  value : List Nat
deriving DecidableEq, Repr

/-- A `row.KVBatch`: ordered KVs, source file slot id, `LastRow` row
watermark, and the fraction-of-file progress (its 32-bit IEEE-754 bit
pattern, kept as an opaque `Nat`, since the code only ever round-trips it
through `math.Float32bits` / `math.Float32frombits`). -/
structure KVBatch where
  kvs : List KV
  source : Nat
  lastRow : Nat
  progressBits : Nat
deriving DecidableEq, Repr

/-! ## fileReader.ReadFraction (read_import_base.go)

    func (f fileReader) ReadFraction() float32 {
        if f.total == 0 { return 0.0 }
        return float32(f.counter.n) / float32(f.total)
    }

`total` is the probed file size (0 when unknown) and `n` the number of
bytes read so far; both are non-negative, modelled as `Nat`, and the
float division is modelled as exact rational division. -/

def ReadFraction (total n : Nat) : ℚ :=
  if total = 0 then 0 else (n : ℚ) / (total : ℚ)

/-! ## sampleRate.sample (import_processor.go)

    func (s sampleRate) sample(kv roachpb.KeyValue) bool {
        sz := float64(len(kv.Key) + len(kv.Value.RawBytes))
        prob := sz / s.sampleSize
        return prob > s.rnd.Float64()
    }

The PRNG draw (`rnd.Float64()`, uniform on [0,1)) is a parameter `draw`;
float arithmetic is modelled as exact rational arithmetic. -/

def sampleRateSample (sampleSize : ℚ) (keyLen valLen : Nat) (draw : ℚ) : Bool :=
  decide (((keyLen : ℚ) + (valLen : ℚ)) / sampleSize > draw)

/-! ## guessCompressionFromName (read_import_base.go)

`hint` is `roachpb.IOFileFormat_Compression`; `parseURIPath` models the
external `url.Parse`, returning the `Path` component when parsing
succeeds and `Option.none` when it fails.  The Go recursion terminates
because `url.Parse` is idempotent on plain paths; the Lean embedding
makes this explicit with fuel (fuel exhaustion yields the default). -/

inductive CompressionCodec where
  | auto
  | gzip
  | bzip
  | uncompressed
deriving DecidableEq, Repr

def suffixGz : String := ".gz"
def suffixBz2 : String := ".bz2"
def suffixBz : String := ".bz"

/-- Go's strings.HasSuffix, on the character sequences of the strings. -/
def hasSuffix (name suffix : String) : Bool :=
  List.isSuffixOf suffix.toList name.toList

def guessCompressionFromName (parseURIPath : String → Option String) :
    Nat → String → CompressionCodec → CompressionCodec
  | 0, _, _ => CompressionCodec.uncompressed
  | fuel + 1, name, hint =>
    if hint ≠ CompressionCodec.auto then hint
    else if hasSuffix name suffixGz then CompressionCodec.gzip
    else if hasSuffix name suffixBz2 || hasSuffix name suffixBz then CompressionCodec.bzip
    else
      match parseURIPath name with
      | some p =>
        if p ≠ name then guessCompressionFromName parseURIPath fuel p hint
        else CompressionCodec.uncompressed
      | none => CompressionCodec.uncompressed

/-! ## The rejected-row sink (read_import_base.go, readInputFiles)

When `format.Format == MysqlOutfile && format.MysqlOut.SaveRejected`, a
sibling task drains the rejected-row channel into a buffer `buf`
(tracking `atFirstLine`); when the channel closes it returns with no
write if nothing was received, otherwise it parses the file's URI,
appends ".rejected" to the parsed path, builds a storage conf **from the
original `rejectedFile := dataFile` string** (the modified `parsedURI`
is never used), and writes `buf` there.

The channel's contents are modelled as the list `rows` (in receive
order); `parseOK` models whether `url.Parse` succeeds on the URI. -/

inductive SinkResult where
  | noWrite
  | wrote (confURI : String) (content : String)
deriving DecidableEq, Repr

def rejectedSink (parseOK : String → Bool) (dataFile : String) (rows : List String) :
    Except Unit SinkResult :=
  let buf := String.join rows
  let atFirstLine := rows.isEmpty
  if atFirstLine then Except.ok SinkResult.noWrite
  else
    let rejectedFile := dataFile
    if parseOK rejectedFile then
      -- parsedURI.Path = parsedURI.Path + ".rejected" happens here in the
      -- source, but parsedURI is not read afterwards: the storage conf is
      -- built from the unmodified rejectedFile.
      Except.ok (SinkResult.wrote rejectedFile buf)
    else Except.error ()

/-- Modelled from the spec: the intended rejected-row destination, "the
source file's URI with \x22.rejected\x22 appended to its path".  For a
URI with no query or fragment this is the URI with ".rejected" appended. -/
def specRejectedURI (dataFile : String) : String :=
  dataFile ++ ".rejected"

/-! ## emitKvs (import_processor.go)

The sampler drains the KV channel and forwards selected KVs upstream.
External collaborators are collected in `EmitEnv`:
  * `contains` — `completedSpans.Contains` on the span set loaded from
    the job's persisted progress before the loop starts (the env is
    fixed for the whole run, exactly as the SpanGroup is);
  * `isDescriptorKey` — `keys.IsDescriptorKey`;
  * `sample` — the outcome of `fn(kv)` (which is `sampleRate.sample`
    with its PRNG) on each KV;
  * `push` — whether `output.Push(row, nil)` returns `NeedMoreRows`.

A forwarded row is the two-column `(key bytes, value bytes)` row.  The
run returns the list of rows pushed upstream, in order, and `false` when
it terminated with the "unexpected closure of consumer" error. -/

structure EmitEnv where
  contains : List Nat → Bool
  isDescriptorKey : List Nat → Bool
  sample : KV → Bool
  push : List Nat × List Nat → Bool

/-- The per-KV loop body of `emitKvs`, over the KVs of one batch.
`sampleAll` is `spec.SampleSize == 0`.  The source's
`rowRequired := sampleAll || IsDescriptorKey(key); if rowRequired ||
fn(kv)` (short-circuit, `fn` is nil and never consulted when
`sampleAll`) is expanded into the equivalent nested conditionals:
required rows carry the full (key, value); merely sampled rows carry
(key, empty).  The result is the list of pushed rows and `false` when a
`Push` returned something other than `NeedMoreRows` ("unexpected
closure of consumer"). -/
def emitKVList (sampleAll : Bool) (env : EmitEnv) : List KV → List (List Nat × List Nat) × Bool
  | [] => ([], true)
  | kv :: rest =>
    if env.contains kv.key then emitKVList sampleAll env rest
    else if sampleAll || env.isDescriptorKey kv.key then
      if env.push (kv.key, kv.value) then
        ((kv.key, kv.value) :: (emitKVList sampleAll env rest).1,
         (emitKVList sampleAll env rest).2)
      else ([(kv.key, kv.value)], false)
    else if env.sample kv then
      if env.push (kv.key, []) then
        ((kv.key, ([] : List Nat)) :: (emitKVList sampleAll env rest).1,
         (emitKVList sampleAll env rest).2)
      else ([(kv.key, ([] : List Nat))], false)
    else emitKVList sampleAll env rest

/-- The outer `for kvBatch := range kvCh` loop of `emitKvs`. -/
def emitBatches (sampleAll : Bool) (env : EmitEnv) : List KVBatch → List (List Nat × List Nat) × Bool
  | [] => ([], true)
  | b :: bs =>
    if (emitKVList sampleAll env b.kvs).2 then
      ((emitKVList sampleAll env b.kvs).1 ++ (emitBatches sampleAll env bs).1,
       (emitBatches sampleAll env bs).2)
    else ((emitKVList sampleAll env b.kvs).1, false)

/-- The run of `emitKvs` for a given `spec.SampleSize` (the job-loading
prologue, which only reads the completed spans already captured in
`env.contains`, is elided). -/
def emitKvsRun (sampleSize : Nat) (env : EmitEnv) (batches : List KVBatch) :
    List (List Nat × List Nat) × Bool :=
  emitBatches (sampleSize == 0) env batches

/-- All KVs of a run, in channel order (what the converter emitted). -/
def kvsOfBatches (batches : List KVBatch) : List KV :=
  (batches.map KVBatch.kvs).flatten

/-! ## The ingest loop of ingestKvs (import_processor.go): routing and errors

`IngestEnv` models the external collaborators of the KV-draining task:
  * `decodeIndexID` — `sqlbase.DecodeTableIDIndexID` projected to the
    index id, `Option.none` modelling a decode error;
  * `pkAdd` / `idxAdd` — the error outcome of `pkIndexAdder.Add` /
    `indexAdder.Add` on a KV (`Option.none` = success);
  * `pkFlushErr` / `idxFlushErr` — the error outcome of the final
    `Flush` calls;
  * `pkSummary` / `idxSummary` — the adders' `GetSummary` values,
    combined on success with `BulkOpSummary.Add` (modelled `+`).

A Go adder error is `AdderErr`; `dup` records whether its dynamic type
is `storagebase.DuplicateKeyError` (the `err.(DuplicateKeyError)` type
assertion), and `id` lets distinct error values be told apart.  The
error returned by `ingestKvs` is `IngestErr`: `wrap msg e` is
`errors.Wrap(e, msg)`, `raw e` is `e` returned as-is, `decodeFail` the
`DecodeTableIDIndexID` error. -/

structure AdderErr where
  dup : Bool
  id : Nat
deriving DecidableEq, Repr

inductive IngestErr where
  | wrap (msg : String) (e : AdderErr)
  | raw (e : AdderErr)
  | decodeFail
deriving DecidableEq, Repr

structure IngestEnv where
  decodeIndexID : List Nat → Option Nat
  pkAdd : KV → Option AdderErr
  idxAdd : KV → Option AdderErr
  pkFlushErr : Option AdderErr
  idxFlushErr : Option AdderErr
  pkSummary : Nat
  idxSummary : Nat

def dupPrimaryMsg : String := "duplicate key in primary index"
def dupIndexMsg : String := "duplicate key in index"

/-- The source's `if _, ok := err.(storagebase.DuplicateKeyError); ok
{ return errors.Wrap(err, msg) }; return err`. -/
def wrapIfDup (msg : String) (e : AdderErr) : IngestErr :=
  if e.dup then IngestErr.wrap msg e else IngestErr.raw e

/-- One iteration of the inner `for _, kv := range kvBatch.KVs` loop:
decode the index id, route to the PK adder when it is 1 and to the
secondary adder otherwise.  Returns the `Add` calls made on
(pk adder, secondary adder) and the error, if any, that makes
`ingestKvs` return. -/
def addOneKV (env : IngestEnv) (kv : KV) : (List KV × List KV) × Option IngestErr :=
  match env.decodeIndexID kv.key with
  | none => (([], []), some IngestErr.decodeFail)
  | some indexID =>
    if indexID = 1 then
      (([kv], []), (env.pkAdd kv).map (wrapIfDup dupPrimaryMsg))
    else
      (([], [kv]), (env.idxAdd kv).map (wrapIfDup dupIndexMsg))

/-- The inner loop over one batch's KVs, stopping at the first error
(the `return` in the source); accumulates the Add-call traces. -/
def addKVs (env : IngestEnv) : List KV → (List KV × List KV) × Option IngestErr
  | [] => (([], []), none)
  | kv :: rest =>
    match addOneKV env kv with
    | (t, some e) => (t, some e)
    | (t, none) =>
      ((t.1 ++ (addKVs env rest).1.1, t.2 ++ (addKVs env rest).1.2),
       (addKVs env rest).2)

/-- The outer `for kvBatch := range kvCh` loop of the ingest task (the
per-batch `writtenRow` / `writtenFraction` updates are modelled by the
`IngestorState` machine below, where the concurrent flush hooks live). -/
def ingestLoop (env : IngestEnv) : List KVBatch → (List KV × List KV) × Option IngestErr
  | [] => (([], []), none)
  | b :: bs =>
    match addKVs env b.kvs with
    | (t, some e) => (t, some e)
    | (t, none) =>
      ((t.1 ++ (ingestLoop env bs).1.1, t.2 ++ (ingestLoop env bs).1.2),
       (ingestLoop env bs).2)

/-- The result of `ingestKvs`: the loop result; after the KV channel
closes, `pkIndexAdder.Flush`, then `indexAdder.Flush` (each wrapping
duplicate key errors), then the combined summary. -/
def ingestKvsResult (env : IngestEnv) (batches : List KVBatch) : Except IngestErr Nat :=
  match (ingestLoop env batches).2 with
  | some e => Except.error e
  | none =>
    match env.pkFlushErr with
    | some e => Except.error (wrapIfDup dupPrimaryMsg e)
    | none =>
      match env.idxFlushErr with
      | some e => Except.error (wrapIfDup dupIndexMsg e)
      | none => Except.ok (env.pkSummary + env.idxSummary)

/-! ## The on-flush hooks and progress state of ingestKvs

    pkIndexAdder.SetOnFlush(func() {
        for _, i := range writtenRow {
            atomic.StoreUint64(&pkFlushedRow[i], writtenRow[i])
        }
        if indexAdder.IsEmpty() {
            for _, i := range writtenRow {
                atomic.StoreUint64(&idxFlushedRow[i], writtenRow[i])
            }
        }
    })
    indexAdder.SetOnFlush(func() {
        for _, i := range writtenRow {
            atomic.StoreUint64(&idxFlushedRow[i], writtenRow[i])
        }
    })

Note the loop variable `i` ranges over the *values* stored in
`writtenRow`, and each value is then used as an index into both slices.
The embedding keeps this faithfully: out-of-range indexing is a Go
panic, modelled as `Option.none`. -/

/-- One `atomic.StoreUint64(&flushed[v], writtenRow[v])` where `v` is a
value drawn from `writtenRow` by the range loop. -/
def storeFlushedStep (wr : List Nat) (acc : Option (List Nat)) (v : Nat) : Option (List Nat) :=
  acc.bind fun fl =>
    if v < fl.length then (wr[v]?).map fun w => fl.set v w
    else none

/-- The `for _, i := range writtenRow { atomic.Store(&flushed[i],
writtenRow[i]) }` loop of the flush hooks. -/
def storeFlushed (wr fl : List Nat) : Option (List Nat) :=
  wr.foldl (storeFlushedStep wr) (some fl)

/-- The PK adder's on-flush hook; `idxEmpty` is `indexAdder.IsEmpty()`
at the time the hook runs.  Returns the new
(pkFlushedRow, idxFlushedRow). -/
def pkOnFlush (wr pk idx : List Nat) (idxEmpty : Bool) : Option (List Nat × List Nat) :=
  (storeFlushed wr pk).bind fun pk' =>
    if idxEmpty then (storeFlushed wr idx).map fun idx' => (pk', idx')
    else some (pk', idx)

/-- The secondary adder's on-flush hook; returns the new idxFlushedRow. -/
def idxOnFlush (wr idx : List Nat) : Option (List Nat) :=
  storeFlushed wr idx

/-- Modelled from the spec (§4.5 "Per-adder flush hook"): what the claim
says the hooks do — copy every `writtenRow[i]` into the flushed array at
the same slot `i`, i.e. the flushed array becomes `writtenRow`. -/
def specFlushedRows (wr : List Nat) : List Nat := wr

/-! ### The ingestor progress state machine (for the reporter task)

The four parallel progress slices of `ingestKvs` (indexed by per-file
offset; the `offsets` map is a fixed bijection from file IDs onto
`0..len(spec.Uri)-1`, so the embedding addresses slots by offset
directly).  The ingest task, the adder-owned flush hooks and the
10-second reporter run concurrently; each atomic step of that
interleaving is an `IngestorEvent`:
  * `batch offset lastRow fracBits` — the end-of-batch bookkeeping of
    the ingest task: `writtenRow[offset] = kvBatch.LastRow;
    atomic.StoreUint32(&writtenFraction[offset],
    math.Float32bits(kvBatch.Progress))`;
  * `pkFlush idxEmpty` / `idxFlush` — a run of the corresponding
    on-flush hook;
  * `tick` — the reporter's `case <-tick.C` body, which snapshots the
    atomics and sends a progress record on progCh.
A Go panic (out-of-range store in a hook) aborts the run: `none`. -/

structure IngestorState where
  writtenRow : List Nat
  writtenFraction : List Nat
  pkFlushedRow : List Nat
  idxFlushedRow : List Nat
deriving DecidableEq, Repr

/-- All slices start zeroed (`make([]uint64, len(spec.Uri))`). -/
def initIngestorState (n : Nat) : IngestorState :=
  ⟨List.replicate n 0, List.replicate n 0, List.replicate n 0, List.replicate n 0⟩

/-- A progress record (`RemoteProducerMetadata_BulkProcessorProgress`);
`completedFraction` holds the raw float bits, since the code stores
`math.Float32frombits` of exactly the loaded word. -/
structure ProgressRec where
  completedRow : List Nat
  completedFraction : List Nat
deriving DecidableEq, Repr

/-- The reporter's tick body: for every offset, load `pkFlushedRow` and
`idxFlushedRow` and keep `pk` if `idx > pk`, else `idx`; load the
written-fraction bits. -/
def tickRecord (s : IngestorState) : ProgressRec :=
  { completedRow := (List.range s.writtenRow.length).map fun o =>
      let pk := (s.pkFlushedRow[o]?).getD 0
      let idx := (s.idxFlushedRow[o]?).getD 0
      if idx > pk then pk else idx
    completedFraction := (List.range s.writtenRow.length).map fun o =>
      (s.writtenFraction[o]?).getD 0 }

inductive IngestorEvent where
  | batch (offset lastRow fracBits : Nat)
  | pkFlush (idxEmpty : Bool)
  | idxFlush
  | tick
deriving DecidableEq, Repr

/-- One interleaving step.  Returns the new state and the progress
record emitted by the step, if any. -/
def ingestorStep (s : IngestorState) : IngestorEvent → Option (IngestorState × Option ProgressRec)
  | IngestorEvent.batch o r b =>
    if o < s.writtenRow.length ∧ o < s.writtenFraction.length then
      some ⟨{ s with
                writtenRow := s.writtenRow.set o r
                writtenFraction := s.writtenFraction.set o b }, none⟩
    else none
  | IngestorEvent.pkFlush idxEmpty =>
    (pkOnFlush s.writtenRow s.pkFlushedRow s.idxFlushedRow idxEmpty).map fun p =>
      ({ s with pkFlushedRow := p.1, idxFlushedRow := p.2 }, none)
  | IngestorEvent.idxFlush =>
    (idxOnFlush s.writtenRow s.idxFlushedRow).map fun idx' =>
      ({ s with idxFlushedRow := idx' }, none)
  | IngestorEvent.tick => some (s, some (tickRecord s))

/-- Run an interleaving; collects each emitted progress record paired
with the state at the moment of its emission. -/
def ingestorRun (s : IngestorState) :
    List IngestorEvent → Option (IngestorState × List (IngestorState × ProgressRec))
  | [] => some (s, [])
  | e :: es =>
    (ingestorStep s e).bind fun sr =>
      (ingestorRun sr.1 es).map fun f =>
        (f.1, match sr.2 with
              | some r => (sr.1, r) :: f.2
              | none => f.2)

/-- Whether one event respects the watermark discipline at state `s`:
a `batch` event may not decrease the `writtenRow` entry it overwrites;
all other events are unconstrained. -/
def eventMonoOK (s : IngestorState) : IngestorEvent → Bool
  | IngestorEvent.batch o r _ => decide ((s.writtenRow[o]?).getD 0 ≤ r)
  | _ => true

/-- The environment assumption that `LastRow` is a watermark: within one
file, batches arrive in emission order, so each `batch` event's row is
at least the `writtenRow` entry it overwrites (spec §5 "Ordering" and
§3's definition of `LastRow`). -/
def monoTrace (s : IngestorState) : List IngestorEvent → Bool
  | [] => true
  | e :: es =>
    eventMonoOK s e &&
    (match ingestorStep s e with
     | some sr => monoTrace sr.1 es
     | none => true)

/-! ## Claim theorems -/

/-- C10: `fileReader.ReadFraction` is total: when the recorded total
size is 0 it returns exactly 0 without dividing, and when the total is
positive it returns bytes-read divided by total; the division-by-zero
branch is unreachable. -/
theorem readFraction_total_cases (total n : Nat) :
    (total = 0 → ReadFraction total n = 0) ∧
    (0 < total → ReadFraction total n = (n : ℚ) / (total : ℚ)) := by
  constructor
  · intro h
    simp [ReadFraction, h]
  · intro h
    simp [ReadFraction, Nat.pos_iff_ne_zero.mp h]

/-- Witness for C10 at total = 0 and total = 2. -/
theorem readFraction_total_cases_witness :
    ReadFraction 0 5 = 0 ∧ ReadFraction 2 1 = (1 : ℚ) / 2 := by
  refine ⟨(readFraction_total_cases 0 5).1 rfl, ?_⟩
  rw [(readFraction_total_cases 2 1).2 (by norm_num)]
  norm_num

/-- C7: for SampleSize > 0 the sampler accepts a non-required KV exactly
when (len(key)+len(value))/SampleSize exceeds the drawn uniform value,
and any KV with len(key)+len(value) ≥ SampleSize is accepted for every
possible draw in [0,1). -/
theorem sampleRate_sample_spec (sampleSize : ℚ) (keyLen valLen : Nat) (draw : ℚ)
    (hpos : 0 < sampleSize) (hdraw : draw < 1) :
    (sampleRateSample sampleSize keyLen valLen draw = true ↔
      draw < ((keyLen : ℚ) + (valLen : ℚ)) / sampleSize) ∧
    (sampleSize ≤ (keyLen : ℚ) + (valLen : ℚ) →
      sampleRateSample sampleSize keyLen valLen draw = true) := by
  have hiff : sampleRateSample sampleSize keyLen valLen draw = true ↔
      draw < ((keyLen : ℚ) + (valLen : ℚ)) / sampleSize := by
    simp [sampleRateSample, gt_iff_lt]
  refine ⟨hiff, fun hsz => ?_⟩
  have h1 : (1 : ℚ) ≤ ((keyLen : ℚ) + (valLen : ℚ)) / sampleSize :=
    (one_le_div hpos).mpr hsz
  exact hiff.mpr (lt_of_lt_of_le hdraw h1)

/-- Witness for C7: a 1000+24-byte KV with SampleSize 1024 is accepted
at draw 9/10. -/
theorem sampleRate_sample_spec_witness :
    sampleRateSample 1024 1000 24 (9/10) = true :=
  (sampleRate_sample_spec 1024 1000 24 (9/10) (by norm_num) (by norm_num)).2 (by norm_num)

/-- C2 (code evaluation): with SaveRejected and a nonempty set of
rejected rows, the sink writes the concatenated rows, but to the
original source URI — not to the URI with ".rejected" appended to its
path (the `parsedURI.Path + ".rejected"` assignment in the source is
dead); with no rejected rows nothing is written. -/
theorem rejectedSink_target_is_source_uri :
    rejectedSink (fun _ => true) ("nodelocal:///data.csv") [("bad,row\n"), ("worse\n")]
      = Except.ok (SinkResult.wrote ("nodelocal:///data.csv") ("bad,row\nworse\n")) ∧
    ("nodelocal:///data.csv") ≠ specRejectedURI ("nodelocal:///data.csv") ∧
    rejectedSink (fun _ => true) ("nodelocal:///data.csv") [] = Except.ok SinkResult.noWrite := by
  refine ⟨rfl, by decide, rfl⟩

/-- C1 (code evaluation): the on-flush hooks do not copy
`writtenRow[i]` into the flushed array at every slot `i`: the range
loop's variable is a value of `writtenRow`, used as an index.  With
writtenRow = [1,1] the PK hook leaves pkFlushedRow = [0,1] instead of
the claimed [1,1] = writtenRow; with writtenRow = [2,0] the hook's
store indexes out of range (a Go panic); the secondary hook has the
same behavior. -/
theorem onFlush_hooks_misindex :
    pkOnFlush [1, 1] [0, 0] [0, 0] false = some ([0, 1], [0, 0]) ∧
    ([0, 1] : List Nat) ≠ specFlushedRows [1, 1] ∧
    storeFlushed [2, 0] [0, 0] = none ∧
    idxOnFlush [1, 1] [0, 0] = some [0, 1] := by
  refine ⟨rfl, by decide, rfl, rfl⟩

/-- C9: `guessCompressionFromName` returns a non-Auto hint unchanged;
with hint Auto it returns Gzip on a ".gz" suffix, Bzip on ".bz2" or
".bz", re-applies the same rules to the parsed URI path when parsing
succeeds and yields a different string, and defaults to None
(identity) otherwise. -/
theorem guessCompressionFromName_spec (parse : String → Option String) (fuel : Nat)
    (name p : String) (hint : CompressionCodec) :
    (hint ≠ CompressionCodec.auto →
      guessCompressionFromName parse (fuel + 1) name hint = hint) ∧
    (hasSuffix name suffixGz = true →
      guessCompressionFromName parse (fuel + 1) name CompressionCodec.auto
        = CompressionCodec.gzip) ∧
    (hasSuffix name suffixGz = false →
      (hasSuffix name suffixBz2 = true ∨ hasSuffix name suffixBz = true) →
      guessCompressionFromName parse (fuel + 1) name CompressionCodec.auto
        = CompressionCodec.bzip) ∧
    (hasSuffix name suffixGz = false → hasSuffix name suffixBz2 = false →
      hasSuffix name suffixBz = false → parse name = some p → p ≠ name →
      guessCompressionFromName parse (fuel + 1) name CompressionCodec.auto
        = guessCompressionFromName parse fuel p CompressionCodec.auto) ∧
    (hasSuffix name suffixGz = false → hasSuffix name suffixBz2 = false →
      hasSuffix name suffixBz = false →
      (parse name = none ∨ parse name = some name) →
      guessCompressionFromName parse (fuel + 1) name CompressionCodec.auto
        = CompressionCodec.uncompressed) := by
  refine ⟨?_, ?_, ?_, ?_, ?_⟩
  · intro h
    simp [guessCompressionFromName, h]
  · intro h
    simp [guessCompressionFromName, h]
  · intro hgz hbz
    rcases hbz with h | h <;> simp [guessCompressionFromName, hgz, h]
  · intro hgz hbz2 hbz hp hne
    simp [guessCompressionFromName, hgz, hbz2, hbz, hp, hne]
  · intro hgz hbz2 hbz hp
    rcases hp with h | h <;> simp [guessCompressionFromName, hgz, hbz2, hbz, h]

/-- A concrete model of url.Parse's path projection for the C9 witness:
on the full URL it returns the path component, elsewhere the string
itself. -/
def parseW : String → Option String := fun s =>
  if s = ("http://host/file.gz?sig=abc") then some ("/file.gz") else some s

/-- Witness for C9: an explicit Gzip hint is returned unchanged on a
name without ".gz", and a name whose URL path ends ".gz?sig=..." is
detected as gzip via the URI-path re-check. -/
theorem guessCompressionFromName_spec_witness :
    guessCompressionFromName parseW 2 ("plainfile") CompressionCodec.gzip
      = CompressionCodec.gzip ∧
    guessCompressionFromName parseW 2 ("http://host/file.gz?sig=abc") CompressionCodec.auto
      = CompressionCodec.gzip := by
  constructor
  · exact (guessCompressionFromName_spec parseW 1 ("plainfile") ("plainfile")
      CompressionCodec.gzip).1 (by decide)
  · have hstep := (guessCompressionFromName_spec parseW 1 ("http://host/file.gz?sig=abc")
      ("/file.gz") CompressionCodec.auto).2.2.2.1
    rw [hstep (by decide) (by decide) (by decide) (by decide) (by decide)]
    exact (guessCompressionFromName_spec parseW 0 ("/file.gz") ("/file.gz")
      CompressionCodec.auto).2.1 (by decide)

/-! ### Lemmas about the sampler loop -/

theorem emitKVList_key_not_contained (sampleAll : Bool) (env : EmitEnv) :
    ∀ kvs : List KV, ∀ r, r ∈ (emitKVList sampleAll env kvs).1 → env.contains r.1 = false := by
  intro kvs
  induction kvs with
  | nil =>
    intro r hr
    simp [emitKVList] at hr
  | cons kv rest ih =>
    intro r hr
    rw [emitKVList] at hr
    rcases hc : env.contains kv.key with _ | _
    · rw [hc] at hr
      simp only [Bool.false_eq_true, if_false] at hr
      by_cases hreq : (sampleAll || env.isDescriptorKey kv.key) = true
      · rw [if_pos hreq] at hr
        by_cases hpush : env.push (kv.key, kv.value) = true
        · rw [if_pos hpush] at hr
          rcases List.mem_cons.mp hr with h | h
          · rw [h]; exact hc
          · exact ih r h
        · rw [if_neg hpush] at hr
          rw [List.mem_singleton.mp hr]; exact hc
      · rw [if_neg hreq] at hr
        by_cases hsmp : env.sample kv = true
        · rw [if_pos hsmp] at hr
          by_cases hpush : env.push (kv.key, []) = true
          · rw [if_pos hpush] at hr
            rcases List.mem_cons.mp hr with h | h
            · rw [h]; exact hc
            · exact ih r h
          · rw [if_neg hpush] at hr
            rw [List.mem_singleton.mp hr]; exact hc
        · rw [if_neg hsmp] at hr
          exact ih r hr
    · rw [hc] at hr
      simp only [if_true] at hr
      exact ih r hr

theorem emitBatches_key_not_contained (sampleAll : Bool) (env : EmitEnv) :
    ∀ bs : List KVBatch, ∀ r, r ∈ (emitBatches sampleAll env bs).1 →
      env.contains r.1 = false := by
  intro bs
  induction bs with
  | nil =>
    intro r hr
    simp [emitBatches] at hr
  | cons b rest ih =>
    intro r hr
    rw [emitBatches] at hr
    by_cases h2 : (emitKVList sampleAll env b.kvs).2 = true
    · rw [if_pos h2] at hr
      rcases List.mem_append.mp hr with h | h
      · exact emitKVList_key_not_contained sampleAll env b.kvs r h
      · exact ih r h
    · rw [if_neg h2] at hr
      exact emitKVList_key_not_contained sampleAll env b.kvs r hr

/-- C6: every row that emitKvs pushes to the upstream sink has a key
outside every completed span; a KV whose key is contained in the
completed-span set contributes nothing to the output. -/
theorem emitKvs_drops_completed_spans (sampleSize : Nat) (env : EmitEnv)
    (batches : List KVBatch) (r : List Nat × List Nat)
    (hr : r ∈ (emitKvsRun sampleSize env batches).1) :
    env.contains r.1 = false :=
  emitBatches_key_not_contained (sampleSize == 0) env batches r hr

/-- The sampler environment for the C6 witness: key [0] lies in a
completed span, everything else is accepted and pushed. -/
def envW6 : EmitEnv :=
  { contains := fun k => decide (k = [0])
    isDescriptorKey := fun _ => false
    sample := fun _ => true
    push := fun _ => true }

def batchesW6 : List KVBatch := [⟨[⟨[0], [5]⟩, ⟨[1], [6]⟩], 0, 1, 0⟩]

/-- Witness for C6: the forwarded row ([1],[6]) has a non-contained key. -/
theorem emitKvs_drops_completed_spans_witness :
    envW6.contains (([1], [6]) : List Nat × List Nat).1 = false :=
  emitKvs_drops_completed_spans 0 envW6 batchesW6 ([1], [6]) (by decide)

theorem emitKVList_sampleAll (env : EmitEnv) (hnc : ∀ k, env.contains k = false)
    (hp : ∀ r, env.push r = true) :
    ∀ kvs : List KV,
      emitKVList true env kvs = (kvs.map fun kv => (kv.key, kv.value), true) := by
  intro kvs
  induction kvs with
  | nil => simp [emitKVList]
  | cons kv rest ih => simp [emitKVList, hnc, hp, ih]

theorem emitBatches_sampleAll (env : EmitEnv) (hnc : ∀ k, env.contains k = false)
    (hp : ∀ r, env.push r = true) :
    ∀ bs : List KVBatch,
      emitBatches true env bs = ((kvsOfBatches bs).map fun kv => (kv.key, kv.value), true) := by
  intro bs
  induction bs with
  | nil => simp [emitBatches, kvsOfBatches]
  | cons b rest ih =>
    simp [emitBatches, kvsOfBatches, emitKVList_sampleAll env hnc hp, ih]

/-- C8: with SampleSize = 0 and an empty completed-span set (and a
consumer that keeps accepting rows), every KV received on the channel is
forwarded as a two-column (key, value) row, in channel order; in
particular the multiset of delivered pairs equals the multiset of KVs
emitted by the converter. -/
theorem emitKvs_sampleSize_zero_roundtrip (env : EmitEnv) (batches : List KVBatch)
    (hnc : ∀ k, env.contains k = false) (hp : ∀ r, env.push r = true) :
    (emitKvsRun 0 env batches).1
        = (kvsOfBatches batches).map (fun kv => (kv.key, kv.value)) ∧
    (emitKvsRun 0 env batches).2 = true ∧
    ((emitKvsRun 0 env batches).1 : Multiset (List Nat × List Nat)) =
      ↑((kvsOfBatches batches).map fun kv => (kv.key, kv.value)) := by
  have h : emitKvsRun 0 env batches
      = ((kvsOfBatches batches).map fun kv => (kv.key, kv.value), true) :=
    emitBatches_sampleAll env hnc hp batches
  refine ⟨by rw [h], by rw [h], by rw [h]⟩

/-- The sampler environment for the C8 witness: no completed spans, the
consumer always accepts. -/
def envW8 : EmitEnv :=
  { contains := fun _ => false
    isDescriptorKey := fun _ => false
    sample := fun _ => false
    push := fun _ => true }

def batchesW8 : List KVBatch := [⟨[⟨[1], [2]⟩], 0, 1, 0⟩, ⟨[⟨[3], [4]⟩], 1, 1, 0⟩]

/-- Witness for C8 on a concrete two-batch run. -/
theorem emitKvs_sampleSize_zero_roundtrip_witness :
    (emitKvsRun 0 envW8 batchesW8).1
        = (kvsOfBatches batchesW8).map (fun kv => (kv.key, kv.value)) ∧
    (emitKvsRun 0 envW8 batchesW8).2 = true ∧
    ((emitKvsRun 0 envW8 batchesW8).1 : Multiset (List Nat × List Nat)) =
      ↑((kvsOfBatches batchesW8).map fun kv => (kv.key, kv.value)) :=
  emitKvs_sampleSize_zero_roundtrip envW8 batchesW8 (fun _ => rfl) (fun _ => rfl)

/-! ### Lemmas about the ingest loop -/

theorem addOneKV_pk_mem (env : IngestEnv) (kv kv' : KV)
    (h : kv' ∈ (addOneKV env kv).1.1) :
    kv' = kv ∧ env.decodeIndexID kv.key = some 1 := by
  cases hdec : env.decodeIndexID kv.key with
  | none =>
    simp [addOneKV, hdec] at h
  | some i =>
    by_cases hi : i = 1
    · subst hi
      simp [addOneKV, hdec] at h
      exact ⟨h, rfl⟩
    · simp [addOneKV, hdec, hi] at h

theorem addOneKV_idx_mem (env : IngestEnv) (kv kv' : KV)
    (h : kv' ∈ (addOneKV env kv).1.2) :
    kv' = kv ∧ ∃ i, env.decodeIndexID kv.key = some i ∧ i ≠ 1 := by
  cases hdec : env.decodeIndexID kv.key with
  | none =>
    simp [addOneKV, hdec] at h
  | some i =>
    by_cases hi : i = 1
    · subst hi
      simp [addOneKV, hdec] at h
    · simp [addOneKV, hdec, hi] at h
      exact ⟨h, i, rfl, hi⟩

theorem addKVs_pk_mem (env : IngestEnv) :
    ∀ kvs : List KV, ∀ kv', kv' ∈ (addKVs env kvs).1.1 →
      env.decodeIndexID kv'.key = some 1 := by
  intro kvs
  induction kvs with
  | nil =>
    intro kv' h
    simp [addKVs] at h
  | cons kv rest ih =>
    intro kv' h
    rw [addKVs] at h
    rcases hone : addOneKV env kv with ⟨t, r⟩
    rw [hone] at h
    cases r with
    | some e =>
      have hm : kv' ∈ (addOneKV env kv).1.1 := by
        rw [hone]; exact h
      obtain ⟨heq, hdec⟩ := addOneKV_pk_mem env kv kv' hm
      rw [heq]; exact hdec
    | none =>
      dsimp only at h
      rcases List.mem_append.mp h with hl | hr
      · have hm : kv' ∈ (addOneKV env kv).1.1 := by
          rw [hone]; exact hl
        obtain ⟨heq, hdec⟩ := addOneKV_pk_mem env kv kv' hm
        rw [heq]; exact hdec
      · exact ih kv' hr

theorem addKVs_idx_mem (env : IngestEnv) :
    ∀ kvs : List KV, ∀ kv', kv' ∈ (addKVs env kvs).1.2 →
      ∃ i, env.decodeIndexID kv'.key = some i ∧ i ≠ 1 := by
  intro kvs
  induction kvs with
  | nil =>
    intro kv' h
    simp [addKVs] at h
  | cons kv rest ih =>
    intro kv' h
    rw [addKVs] at h
    rcases hone : addOneKV env kv with ⟨t, r⟩
    rw [hone] at h
    cases r with
    | some e =>
      have hm : kv' ∈ (addOneKV env kv).1.2 := by
        rw [hone]; exact h
      obtain ⟨heq, hdec⟩ := addOneKV_idx_mem env kv kv' hm
      rw [heq]; exact hdec
    | none =>
      dsimp only at h
      rcases List.mem_append.mp h with hl | hr
      · have hm : kv' ∈ (addOneKV env kv).1.2 := by
          rw [hone]; exact hl
        obtain ⟨heq, hdec⟩ := addOneKV_idx_mem env kv kv' hm
        rw [heq]; exact hdec
      · exact ih kv' hr

theorem ingestLoop_pk_mem (env : IngestEnv) :
    ∀ bs : List KVBatch, ∀ kv', kv' ∈ (ingestLoop env bs).1.1 →
      env.decodeIndexID kv'.key = some 1 := by
  intro bs
  induction bs with
  | nil =>
    intro kv' h
    simp [ingestLoop] at h
  | cons b rest ih =>
    intro kv' h
    rw [ingestLoop] at h
    rcases hone : addKVs env b.kvs with ⟨t, r⟩
    rw [hone] at h
    cases r with
    | some e =>
      refine addKVs_pk_mem env b.kvs kv' ?_
      rw [hone]; exact h
    | none =>
      dsimp only at h
      rcases List.mem_append.mp h with hl | hr
      · refine addKVs_pk_mem env b.kvs kv' ?_
        rw [hone]; exact hl
      · exact ih kv' hr

theorem ingestLoop_idx_mem (env : IngestEnv) :
    ∀ bs : List KVBatch, ∀ kv', kv' ∈ (ingestLoop env bs).1.2 →
      ∃ i, env.decodeIndexID kv'.key = some i ∧ i ≠ 1 := by
  intro bs
  induction bs with
  | nil =>
    intro kv' h
    simp [ingestLoop] at h
  | cons b rest ih =>
    intro kv' h
    rw [ingestLoop] at h
    rcases hone : addKVs env b.kvs with ⟨t, r⟩
    rw [hone] at h
    cases r with
    | some e =>
      refine addKVs_idx_mem env b.kvs kv' ?_
      rw [hone]; exact h
    | none =>
      dsimp only at h
      rcases List.mem_append.mp h with hl | hr
      · refine addKVs_idx_mem env b.kvs kv' ?_
        rw [hone]; exact hl
      · exact ih kv' hr

/-- C3: in the ingest loop, every KV passed to the PK adder's Add has
decoded IndexID 1, and every KV passed to the secondary adder's Add has
a decoded IndexID different from 1; since the decode is a function of
the key, no KV is ever passed to the other adder. -/
theorem ingestKvs_routes_by_index_id (env : IngestEnv) (batches : List KVBatch) :
    (∀ kv, kv ∈ (ingestLoop env batches).1.1 → env.decodeIndexID kv.key = some 1) ∧
    (∀ kv, kv ∈ (ingestLoop env batches).1.2 →
      ∃ i, env.decodeIndexID kv.key = some i ∧ i ≠ 1) :=
  ⟨fun kv h => ingestLoop_pk_mem env batches kv h,
   fun kv h => ingestLoop_idx_mem env batches kv h⟩

/-- The adder environment for the C3/C4 witnesses: the index id is the
key's first byte, the PK adder reports a duplicate-key error on key
[1,9]. -/
def envW3 : IngestEnv :=
  { decodeIndexID := fun k => k.head?
    pkAdd := fun kv => if kv.key = [1, 9] then some ⟨true, 7⟩ else none
    idxAdd := fun _ => none
    pkFlushErr := none
    idxFlushErr := none
    pkSummary := 0
    idxSummary := 0 }

def batchesW3 : List KVBatch := [⟨[⟨[1, 4], [0]⟩, ⟨[2, 5], [0]⟩], 0, 1, 0⟩]

/-- Witness for C3: the KV with key [1,4] (IndexID 1) went to the PK
adder. -/
theorem ingestKvs_routes_by_index_id_witness :
    envW3.decodeIndexID (KV.mk [1, 4] [0]).key = some 1 :=
  (ingestKvs_routes_by_index_id envW3 batchesW3).1 ⟨[1, 4], [0]⟩ (by decide)

theorem wrapIfDup_wrap_inv (msg : String) (e : AdderErr) (msg' : String) (e' : AdderErr)
    (h : wrapIfDup msg e = IngestErr.wrap msg' e') :
    e.dup = true ∧ msg' = msg ∧ e' = e := by
  unfold wrapIfDup at h
  by_cases hd : e.dup = true
  · rw [if_pos hd] at h
    injection h with h1 h2
    exact ⟨hd, h1.symm, h2.symm⟩
  · rw [if_neg hd] at h
    exact absurd h (by intro hc; cases hc)

theorem wrapIfDup_raw_inv (msg : String) (e e' : AdderErr)
    (h : wrapIfDup msg e = IngestErr.raw e') :
    e.dup = false ∧ e' = e := by
  unfold wrapIfDup at h
  by_cases hd : e.dup = true
  · rw [if_pos hd] at h
    exact absurd h (by intro hc; cases hc)
  · rw [if_neg hd] at h
    injection h with h1
    exact ⟨Bool.not_eq_true _ |>.mp hd, h1.symm⟩

theorem addOneKV_err (env : IngestEnv) (kv : KV) (er : IngestErr)
    (h : (addOneKV env kv).2 = some er) :
    er = IngestErr.decodeFail ∨
    (∃ e, env.pkAdd kv = some e ∧ er = wrapIfDup dupPrimaryMsg e ∧
      kv ∈ (addOneKV env kv).1.1) ∨
    (∃ e, env.idxAdd kv = some e ∧ er = wrapIfDup dupIndexMsg e ∧
      kv ∈ (addOneKV env kv).1.2) := by
  cases hdec : env.decodeIndexID kv.key with
  | none =>
    simp [addOneKV, hdec] at h
    exact Or.inl h.symm
  | some i =>
    by_cases hi : i = 1
    · subst hi
      rw [show (addOneKV env kv).2 = (env.pkAdd kv).map (wrapIfDup dupPrimaryMsg) by
        simp [addOneKV, hdec]] at h
      cases hpk : env.pkAdd kv with
      | none =>
        rw [hpk] at h
        simp at h
      | some e =>
        rw [hpk] at h
        simp at h
        refine Or.inr (Or.inl ⟨e, rfl, h.symm, ?_⟩)
        simp [addOneKV, hdec]
    · rw [show (addOneKV env kv).2 = (env.idxAdd kv).map (wrapIfDup dupIndexMsg) by
        simp [addOneKV, hdec, hi]] at h
      cases hidx : env.idxAdd kv with
      | none =>
        rw [hidx] at h
        simp at h
      | some e =>
        rw [hidx] at h
        simp at h
        refine Or.inr (Or.inr ⟨e, rfl, h.symm, ?_⟩)
        simp [addOneKV, hdec, hi]

theorem addKVs_err (env : IngestEnv) :
    ∀ kvs : List KV, ∀ er, (addKVs env kvs).2 = some er →
      er = IngestErr.decodeFail ∨
      (∃ kv e, kv ∈ (addKVs env kvs).1.1 ∧ env.pkAdd kv = some e ∧
        er = wrapIfDup dupPrimaryMsg e) ∨
      (∃ kv e, kv ∈ (addKVs env kvs).1.2 ∧ env.idxAdd kv = some e ∧
        er = wrapIfDup dupIndexMsg e) := by
  intro kvs
  induction kvs with
  | nil =>
    intro er h
    simp [addKVs] at h
  | cons kv rest ih =>
    intro er h
    rw [addKVs] at h ⊢
    rcases hone : addOneKV env kv with ⟨t, r⟩
    rw [hone] at h
    cases r with
    | some e =>
      dsimp only at h ⊢
      injection h with h'
      subst h'
      rcases addOneKV_err env kv e (by rw [hone]) with hdf | ⟨e0, hpk, hw, hm⟩
        | ⟨e0, hidx, hw, hm⟩
      · exact Or.inl hdf
      · rw [hone] at hm
        exact Or.inr (Or.inl ⟨kv, e0, hm, hpk, hw⟩)
      · rw [hone] at hm
        exact Or.inr (Or.inr ⟨kv, e0, hm, hidx, hw⟩)
    | none =>
      dsimp only at h ⊢
      rcases ih er h with hdf | ⟨kv0, e0, hm, hpk, hw⟩ | ⟨kv0, e0, hm, hidx, hw⟩
      · exact Or.inl hdf
      · exact Or.inr (Or.inl ⟨kv0, e0, List.mem_append_right _ hm, hpk, hw⟩)
      · exact Or.inr (Or.inr ⟨kv0, e0, List.mem_append_right _ hm, hidx, hw⟩)

theorem ingestLoop_err (env : IngestEnv) :
    ∀ bs : List KVBatch, ∀ er, (ingestLoop env bs).2 = some er →
      er = IngestErr.decodeFail ∨
      (∃ kv e, kv ∈ (ingestLoop env bs).1.1 ∧ env.pkAdd kv = some e ∧
        er = wrapIfDup dupPrimaryMsg e) ∨
      (∃ kv e, kv ∈ (ingestLoop env bs).1.2 ∧ env.idxAdd kv = some e ∧
        er = wrapIfDup dupIndexMsg e) := by
  intro bs
  induction bs with
  | nil =>
    intro er h
    simp [ingestLoop] at h
  | cons b rest ih =>
    intro er h
    rw [ingestLoop] at h ⊢
    rcases hone : addKVs env b.kvs with ⟨t, r⟩
    rw [hone] at h
    cases r with
    | some e =>
      dsimp only at h ⊢
      injection h with h'
      subst h'
      rcases addKVs_err env b.kvs e (by rw [hone]) with hdf | ⟨kv0, e0, hm, hpk, hw⟩
        | ⟨kv0, e0, hm, hidx, hw⟩
      · exact Or.inl hdf
      · rw [hone] at hm
        exact Or.inr (Or.inl ⟨kv0, e0, hm, hpk, hw⟩)
      · rw [hone] at hm
        exact Or.inr (Or.inr ⟨kv0, e0, hm, hidx, hw⟩)
    | none =>
      dsimp only at h ⊢
      rcases ih er h with hdf | ⟨kv0, e0, hm, hpk, hw⟩ | ⟨kv0, e0, hm, hidx, hw⟩
      · exact Or.inl hdf
      · exact Or.inr (Or.inl ⟨kv0, e0, List.mem_append_right _ hm, hpk, hw⟩)
      · exact Or.inr (Or.inr ⟨kv0, e0, List.mem_append_right _ hm, hidx, hw⟩)

/-- C4: whenever `ingestKvs` returns a wrapped error, the wrapped error
is a DuplicateKeyError, the message is "duplicate key in primary index"
exactly when it came from the PK adder (an executed `Add` or the final
`Flush`) and "duplicate key in index" exactly when it came from the
secondary adder; any non-duplicate adder error is returned unwrapped
(as `raw`).  In every error case the `Except` carries no summary. -/
theorem ingestKvs_wraps_duplicate_key_errors (env : IngestEnv) (batches : List KVBatch) :
    (∀ msg e, ingestKvsResult env batches = Except.error (IngestErr.wrap msg e) →
      e.dup = true ∧
      ((msg = dupPrimaryMsg ∧
         ((∃ kv, kv ∈ (ingestLoop env batches).1.1 ∧ env.pkAdd kv = some e) ∨
           env.pkFlushErr = some e)) ∨
       (msg = dupIndexMsg ∧
         ((∃ kv, kv ∈ (ingestLoop env batches).1.2 ∧ env.idxAdd kv = some e) ∨
           env.idxFlushErr = some e)))) ∧
    (∀ e, ingestKvsResult env batches = Except.error (IngestErr.raw e) →
      e.dup = false) := by
  constructor
  · intro msg e h
    unfold ingestKvsResult at h
    cases hloop : (ingestLoop env batches).2 with
    | some er =>
      rw [hloop] at h
      dsimp only at h
      injection h with h'
      rcases ingestLoop_err env batches er hloop with hdf | ⟨kv0, e0, hm, hpk, hw⟩
        | ⟨kv0, e0, hm, hidx, hw⟩
      · rw [h'] at hdf
        cases hdf
      · rw [h'] at hw
        obtain ⟨hdup, hmsg, heq⟩ := wrapIfDup_wrap_inv dupPrimaryMsg e0 msg e hw.symm
        subst heq
        exact ⟨hdup, Or.inl ⟨hmsg, Or.inl ⟨kv0, hm, hpk⟩⟩⟩
      · rw [h'] at hw
        obtain ⟨hdup, hmsg, heq⟩ := wrapIfDup_wrap_inv dupIndexMsg e0 msg e hw.symm
        subst heq
        exact ⟨hdup, Or.inr ⟨hmsg, Or.inl ⟨kv0, hm, hidx⟩⟩⟩
    | none =>
      rw [hloop] at h
      dsimp only at h
      cases hpkf : env.pkFlushErr with
      | some e0 =>
        rw [hpkf] at h
        dsimp only at h
        injection h with h'
        obtain ⟨hdup, hmsg, heq⟩ := wrapIfDup_wrap_inv dupPrimaryMsg e0 msg e h'
        subst heq
        exact ⟨hdup, Or.inl ⟨hmsg, Or.inr rfl⟩⟩
      | none =>
        rw [hpkf] at h
        dsimp only at h
        cases hidxf : env.idxFlushErr with
        | some e0 =>
          rw [hidxf] at h
          dsimp only at h
          injection h with h'
          obtain ⟨hdup, hmsg, heq⟩ := wrapIfDup_wrap_inv dupIndexMsg e0 msg e h'
          subst heq
          exact ⟨hdup, Or.inr ⟨hmsg, Or.inr rfl⟩⟩
        | none =>
          rw [hidxf] at h
          cases h
  · intro e h
    unfold ingestKvsResult at h
    cases hloop : (ingestLoop env batches).2 with
    | some er =>
      rw [hloop] at h
      dsimp only at h
      injection h with h'
      rcases ingestLoop_err env batches er hloop with hdf | ⟨kv0, e0, hm, hpk, hw⟩
        | ⟨kv0, e0, hm, hidx, hw⟩
      · rw [h'] at hdf
        cases hdf
      · rw [h'] at hw
        obtain ⟨hdup, heq⟩ := wrapIfDup_raw_inv dupPrimaryMsg e0 e hw.symm
        rw [heq]
        exact hdup
      · rw [h'] at hw
        obtain ⟨hdup, heq⟩ := wrapIfDup_raw_inv dupIndexMsg e0 e hw.symm
        rw [heq]
        exact hdup
    | none =>
      rw [hloop] at h
      dsimp only at h
      cases hpkf : env.pkFlushErr with
      | some e0 =>
        rw [hpkf] at h
        dsimp only at h
        injection h with h'
        obtain ⟨hdup, heq⟩ := wrapIfDup_raw_inv dupPrimaryMsg e0 e h'
        rw [heq]
        exact hdup
      | none =>
        rw [hpkf] at h
        dsimp only at h
        cases hidxf : env.idxFlushErr with
        | some e0 =>
          rw [hidxf] at h
          dsimp only at h
          injection h with h'
          obtain ⟨hdup, heq⟩ := wrapIfDup_raw_inv dupIndexMsg e0 e h'
          rw [heq]
          exact hdup
        | none =>
          rw [hidxf] at h
          cases h

/-- The batch for the C4 witness: its single KV has key [1,9], on which
`envW3`'s PK adder reports a duplicate-key error. -/
def batchesW4 : List KVBatch := [⟨[⟨[1, 9], [0]⟩], 0, 1, 0⟩]

theorem ingestKvs_wraps_duplicate_key_errors_witness :
    (AdderErr.mk true 7).dup = true :=
  ((ingestKvs_wraps_duplicate_key_errors envW3 batchesW4).1 dupPrimaryMsg ⟨true, 7⟩
    rfl).1

/-! ### Lemmas about the flush-hook stores and the reporter -/

theorem storeFlushed_foldl_none (wr : List Nat) :
    ∀ l : List Nat, List.foldl (storeFlushedStep wr) none l = none := by
  intro l
  induction l with
  | nil => rfl
  | cons v rest ih =>
    rw [List.foldl_cons]
    rw [show storeFlushedStep wr none v = none from rfl]
    exact ih

theorem storeFlushed_foldl_length (wr : List Nat) :
    ∀ l fl fl', List.foldl (storeFlushedStep wr) (some fl) l = some fl' →
      fl'.length = fl.length := by
  intro l
  induction l with
  | nil =>
    intro fl fl' h
    injection h with h'
    rw [h']
  | cons v rest ih =>
    intro fl fl' h
    rw [List.foldl_cons] at h
    by_cases hv : v < fl.length
    · rw [show storeFlushedStep wr (some fl) v
          = if v < fl.length then (wr[v]?).map fun w => fl.set v w else none from rfl,
        if_pos hv] at h
      cases hw : wr[v]? with
      | none =>
        rw [hw] at h
        rw [show Option.map (fun w => fl.set v w) none = none from rfl] at h
        rw [storeFlushed_foldl_none wr rest] at h
        cases h
      | some w =>
        rw [hw] at h
        rw [show Option.map (fun w => fl.set v w) (some w) = some (fl.set v w) from rfl] at h
        have := ih (fl.set v w) fl' h
        rw [this, List.length_set]
    · rw [show storeFlushedStep wr (some fl) v
          = if v < fl.length then (wr[v]?).map fun w => fl.set v w else none from rfl,
        if_neg hv] at h
      rw [storeFlushed_foldl_none wr rest] at h
      cases h

theorem storeFlushed_foldl_entries (wr : List Nat) :
    ∀ l fl fl', List.foldl (storeFlushedStep wr) (some fl) l = some fl' →
      ∀ j : Nat, fl'[j]? = fl[j]? ∨ fl'[j]? = wr[j]? := by
  intro l
  induction l with
  | nil =>
    intro fl fl' h j
    injection h with h'
    rw [h']
    exact Or.inl rfl
  | cons v rest ih =>
    intro fl fl' h j
    rw [List.foldl_cons] at h
    by_cases hv : v < fl.length
    · rw [show storeFlushedStep wr (some fl) v
          = if v < fl.length then (wr[v]?).map fun w => fl.set v w else none from rfl,
        if_pos hv] at h
      cases hw : wr[v]? with
      | none =>
        rw [hw] at h
        rw [show Option.map (fun w => fl.set v w) none = none from rfl] at h
        rw [storeFlushed_foldl_none wr rest] at h
        cases h
      | some w =>
        rw [hw] at h
        rw [show Option.map (fun w => fl.set v w) (some w) = some (fl.set v w) from rfl] at h
        rcases ih (fl.set v w) fl' h j with h1 | h1
        · rw [h1, List.getElem?_set]
          by_cases hvj : v = j
          · subst hvj
            rw [if_pos rfl, if_pos hv, ← hw]
            exact Or.inr rfl
          · rw [if_neg hvj]
            exact Or.inl rfl
        · exact Or.inr h1
    · rw [show storeFlushedStep wr (some fl) v
          = if v < fl.length then (wr[v]?).map fun w => fl.set v w else none from rfl,
        if_neg hv] at h
      rw [storeFlushed_foldl_none wr rest] at h
      cases h

theorem storeFlushed_length (wr fl fl' : List Nat)
    (h : storeFlushed wr fl = some fl') : fl'.length = fl.length :=
  storeFlushed_foldl_length wr wr fl fl' h

theorem storeFlushed_entries (wr fl fl' : List Nat)
    (h : storeFlushed wr fl = some fl') :
    ∀ j : Nat, fl'[j]? = fl[j]? ∨ fl'[j]? = wr[j]? :=
  storeFlushed_foldl_entries wr wr fl fl' h

/-- The cross-task invariant of the progress slices: fixed lengths, and
each flushed entry never exceeds the corresponding written entry. -/
def InvAt (n : Nat) (s : IngestorState) : Prop :=
  s.writtenRow.length = n ∧ s.writtenFraction.length = n ∧
  s.pkFlushedRow.length = n ∧ s.idxFlushedRow.length = n ∧
  (∀ o : Nat, (s.pkFlushedRow[o]?).getD 0 ≤ (s.writtenRow[o]?).getD 0) ∧
  (∀ o : Nat, (s.idxFlushedRow[o]?).getD 0 ≤ (s.writtenRow[o]?).getD 0)

theorem getD_replicate_zero (n o : Nat) :
    (((List.replicate n (0 : Nat))[o]?).getD 0) = 0 := by
  rw [List.getElem?_replicate]
  by_cases h : o < n
  · rw [if_pos h]
    rfl
  · rw [if_neg h]
    rfl

theorem invAt_init (n : Nat) : InvAt n (initIngestorState n) := by
  unfold InvAt initIngestorState
  refine ⟨List.length_replicate _ _, List.length_replicate _ _,
    List.length_replicate _ _, List.length_replicate _ _, ?_, ?_⟩ <;>
    intro o <;> simp only [getD_replicate_zero] <;> exact Nat.le_refl 0

theorem invAt_step (n : Nat) (s s' : IngestorState) (e : IngestorEvent)
    (r? : Option ProgressRec) (hInv : InvAt n s)
    (hmono : ∀ o r b, e = IngestorEvent.batch o r b → (s.writtenRow[o]?).getD 0 ≤ r)
    (hstep : ingestorStep s e = some (s', r?)) : InvAt n s' := by
  obtain ⟨hw, hf, hpk, hidx, hpkle, hidxle⟩ := hInv
  cases e with
  | batch o r b =>
    rw [ingestorStep] at hstep
    by_cases hc : o < s.writtenRow.length ∧ o < s.writtenFraction.length
    · rw [if_pos hc] at hstep
      injection hstep with h'
      have hs' := congrArg Prod.fst h'
      dsimp at hs'
      subst hs'
      refine ⟨?_, ?_, hpk, hidx, ?_, ?_⟩
      · dsimp only
        rw [List.length_set]
        exact hw
      · dsimp only
        rw [List.length_set]
        exact hf
      · intro o'
        dsimp only
        rw [List.getElem?_set]
        by_cases ho' : o = o'
        · subst ho'
          rw [if_pos rfl, if_pos hc.1]
          exact le_trans (hpkle o) (hmono o r b rfl)
        · rw [if_neg ho']
          exact hpkle o'
      · intro o'
        dsimp only
        rw [List.getElem?_set]
        by_cases ho' : o = o'
        · subst ho'
          rw [if_pos rfl, if_pos hc.1]
          exact le_trans (hidxle o) (hmono o r b rfl)
        · rw [if_neg ho']
          exact hidxle o'
    · rw [if_neg hc] at hstep
      cases hstep
  | pkFlush ie =>
    rw [ingestorStep] at hstep
    rcases Option.map_eq_some'.mp hstep with ⟨p, hp, heq⟩
    have hs' := congrArg Prod.fst heq
    dsimp at hs'
    subst hs'
    rw [pkOnFlush] at hp
    rcases Option.bind_eq_some.mp hp with ⟨pk', hpk', hrest⟩
    have hpklen := storeFlushed_length _ _ _ hpk'
    have hpkent := storeFlushed_entries _ _ _ hpk'
    cases ie with
    | true =>
      rw [if_pos rfl] at hrest
      rcases Option.map_eq_some'.mp hrest with ⟨idx', hidx', heq2⟩
      have hidxlen := storeFlushed_length _ _ _ hidx'
      have hidxent := storeFlushed_entries _ _ _ hidx'
      subst heq2
      refine ⟨hw, hf, ?_, ?_, ?_, ?_⟩
      · dsimp only
        rw [hpklen]
        exact hpk
      · dsimp only
        rw [hidxlen]
        exact hidx
      · intro o
        dsimp only
        rcases hpkent o with h1 | h1
        · rw [h1]
          exact hpkle o
        · rw [h1]
      · intro o
        dsimp only
        rcases hidxent o with h1 | h1
        · rw [h1]
          exact hidxle o
        · rw [h1]
    | false =>
      rw [if_neg (by simp)] at hrest
      injection hrest with hrest'
      subst hrest'
      refine ⟨hw, hf, ?_, hidx, ?_, hidxle⟩
      · dsimp only
        rw [hpklen]
        exact hpk
      · intro o
        dsimp only
        rcases hpkent o with h1 | h1
        · rw [h1]
          exact hpkle o
        · rw [h1]
  | idxFlush =>
    rw [ingestorStep] at hstep
    rcases Option.map_eq_some'.mp hstep with ⟨idx', hidx', heq⟩
    have hs' := congrArg Prod.fst heq
    dsimp at hs'
    subst hs'
    rw [idxOnFlush] at hidx'
    have hidxlen := storeFlushed_length _ _ _ hidx'
    have hidxent := storeFlushed_entries _ _ _ hidx'
    refine ⟨hw, hf, hpk, ?_, hpkle, ?_⟩
    · dsimp only
      rw [hidxlen]
      exact hidx
    · intro o
      dsimp only
      rcases hidxent o with h1 | h1
      · rw [h1]
        exact hidxle o
      · rw [h1]
  | tick =>
    rw [ingestorStep] at hstep
    injection hstep with h'
    have hs' := congrArg Prod.fst h'
    dsimp at hs'
    subst hs'
    exact ⟨hw, hf, hpk, hidx, hpkle, hidxle⟩

theorem tickRecord_spec (n : Nat) (s : IngestorState) (hInv : InvAt n s) :
    ∀ o : Nat, o < n →
      ((tickRecord s).completedRow[o]?).getD 0
          = min ((s.pkFlushedRow[o]?).getD 0) ((s.idxFlushedRow[o]?).getD 0) ∧
      ((tickRecord s).completedFraction[o]?).getD 0 = (s.writtenFraction[o]?).getD 0 ∧
      ((tickRecord s).completedRow[o]?).getD 0 ≤ (s.writtenRow[o]?).getD 0 := by
  obtain ⟨hw, hf, hpk, hidx, hpkle, hidxle⟩ := hInv
  intro o ho
  have ho' : o < s.writtenRow.length := by
    rw [hw]
    exact ho
  have hcr : ((tickRecord s).completedRow[o]?).getD 0
      = (let pk := (s.pkFlushedRow[o]?).getD 0
         let idx := (s.idxFlushedRow[o]?).getD 0
         if idx > pk then pk else idx) := by
    show ((((List.range s.writtenRow.length).map fun o =>
        let pk := (s.pkFlushedRow[o]?).getD 0
        let idx := (s.idxFlushedRow[o]?).getD 0
        if idx > pk then pk else idx)[o]?).getD 0) = _
    rw [List.getElem?_map, List.getElem?_range ho']
    rfl
  have hcf : ((tickRecord s).completedFraction[o]?).getD 0
      = (s.writtenFraction[o]?).getD 0 := by
    show ((((List.range s.writtenRow.length).map fun o =>
        (s.writtenFraction[o]?).getD 0)[o]?).getD 0) = _
    rw [List.getElem?_map, List.getElem?_range ho']
    rfl
  refine ⟨?_, hcf, ?_⟩
  · rw [hcr]
    dsimp only
    split
    · next hgt => omega
    · next hgt => omega
  · rw [hcr]
    dsimp only
    split
    · exact hpkle o
    · exact hidxle o

theorem ingestorStep_emits (s : IngestorState) (e : IngestorEvent)
    (sr : IngestorState × Option ProgressRec)
    (hstep : ingestorStep s e = some sr) (r : ProgressRec) (hr : sr.2 = some r) :
    sr.1 = s ∧ r = tickRecord s := by
  cases e with
  | batch o rr b =>
    rw [ingestorStep] at hstep
    by_cases hc : o < s.writtenRow.length ∧ o < s.writtenFraction.length
    · rw [if_pos hc] at hstep
      injection hstep with h'
      rw [← h'] at hr
      cases hr
    · rw [if_neg hc] at hstep
      cases hstep
  | pkFlush ie =>
    rw [ingestorStep] at hstep
    rcases Option.map_eq_some'.mp hstep with ⟨p, hp, heq⟩
    rw [← heq] at hr
    cases hr
  | idxFlush =>
    rw [ingestorStep] at hstep
    rcases Option.map_eq_some'.mp hstep with ⟨p, hp, heq⟩
    rw [← heq] at hr
    cases hr
  | tick =>
    rw [ingestorStep] at hstep
    injection hstep with h'
    rw [← h'] at hr
    injection hr with hr'
    rw [← h']
    exact ⟨rfl, hr'.symm⟩

theorem ingestorRun_records (n : Nat) :
    ∀ evs : List IngestorEvent, ∀ s sf recs, InvAt n s → monoTrace s evs = true →
      ingestorRun s evs = some (sf, recs) →
      ∀ p, p ∈ recs → InvAt n p.1 ∧ p.2 = tickRecord p.1 := by
  intro evs
  induction evs with
  | nil =>
    intro s sf recs _ _ hrun p hp
    rw [ingestorRun] at hrun
    injection hrun with h'
    have hrecs := congrArg Prod.snd h'
    dsimp at hrecs
    rw [← hrecs] at hp
    cases hp
  | cons e es ih =>
    intro s sf recs hInv hmono hrun p hp
    rw [ingestorRun] at hrun
    cases hstep : ingestorStep s e with
    | none =>
      rw [hstep] at hrun
      cases hrun
    | some sr =>
      rw [hstep] at hrun
      rcases Option.map_eq_some'.mp hrun with ⟨f, hf, heq⟩
      rw [monoTrace, hstep] at hmono
      rcases (Bool.and_eq_true _ _).mp hmono with ⟨hm1, hm2⟩
      have hm2' : monoTrace sr.1 es = true := hm2
      have hInv' : InvAt n sr.1 := by
        refine invAt_step n s sr.1 e sr.2 hInv ?_ hstep
        intro o rr b he
        subst he
        have hm1' : decide ((s.writtenRow[o]?).getD 0 ≤ rr) = true := hm1
        exact of_decide_eq_true hm1'

      have hrecs := congrArg Prod.snd heq
      dsimp at hrecs
      cases hsr2 : sr.2 with
      | some r =>
        rw [hsr2] at hrecs
        dsimp at hrecs
        rw [← hrecs] at hp
        rcases List.mem_cons.mp hp with hph | hpt
        · obtain ⟨hseq, hreq⟩ := ingestorStep_emits s e sr hstep r hsr2
          rw [hph]
          refine ⟨hInv', ?_⟩
          dsimp only
          rw [hreq, hseq]
        · exact ih sr.1 f.1 f.2 hInv' hm2' hf p hpt
      | none =>
        rw [hsr2] at hrecs
        dsimp at hrecs
        rw [← hrecs] at hp
        exact ih sr.1 f.1 f.2 hInv' hm2' hf p hp

/-- C5: every progress record the reporter emits carries, per file slot,
CompletedRow equal to the minimum of the atomically loaded pkFlushedRow
and idxFlushedRow entries and CompletedFraction equal to the loaded
writtenFraction bits, and (assuming the LastRow watermarks of a file's
batches are nondecreasing, per the pipeline's ordering invariant) each
CompletedRow entry is at most the writtenRow entry at the moment of
emission. -/
theorem ingestKvs_progress_record_bounds (n : Nat) (evs : List IngestorEvent)
    (sf : IngestorState) (recs : List (IngestorState × ProgressRec))
    (hmono : monoTrace (initIngestorState n) evs = true)
    (hrun : ingestorRun (initIngestorState n) evs = some (sf, recs)) :
    ∀ p, p ∈ recs → ∀ o : Nat, o < n →
      ((p.2.completedRow[o]?).getD 0
          = min ((p.1.pkFlushedRow[o]?).getD 0) ((p.1.idxFlushedRow[o]?).getD 0)) ∧
      ((p.2.completedFraction[o]?).getD 0 = (p.1.writtenFraction[o]?).getD 0) ∧
      ((p.2.completedRow[o]?).getD 0 ≤ (p.1.writtenRow[o]?).getD 0) := by
  intro p hp o ho
  obtain ⟨hInv, hrec⟩ :=
    ingestorRun_records n evs (initIngestorState n) sf recs (invAt_init n) hmono hrun p hp
  rw [hrec]
  exact tickRecord_spec n p.1 hInv o ho

/-- The state reached by the C5 witness trace, and the record its tick
emits. -/
def sW5 : IngestorState := ⟨[1, 0], [3, 0], [1, 0], [1, 0]⟩

def rW5 : ProgressRec := ⟨[1, 0], [3, 0]⟩

def evsW5 : List IngestorEvent :=
  [IngestorEvent.batch 0 1 3, IngestorEvent.pkFlush true, IngestorEvent.tick]

/-- Witness for C5 on a two-file run: one batch for file 0, a PK flush
with the secondary adder empty, then a reporter tick. -/
theorem ingestKvs_progress_record_bounds_witness :
    ((((sW5, rW5) : IngestorState × ProgressRec).2.completedRow[0]?).getD 0
        = min (((sW5, rW5).1.pkFlushedRow[0]?).getD 0)
            (((sW5, rW5).1.idxFlushedRow[0]?).getD 0)) ∧
    (((sW5, rW5).2.completedFraction[0]?).getD 0
        = ((sW5, rW5).1.writtenFraction[0]?).getD 0) ∧
    (((sW5, rW5).2.completedRow[0]?).getD 0
        ≤ ((sW5, rW5).1.writtenRow[0]?).getD 0) :=
  ingestKvs_progress_record_bounds 2 evsW5 sW5 [(sW5, rW5)] (by decide) (by decide)
    (sW5, rW5) (by decide) 0 (by decide)
